import Mathlib

/-!
The bc-ur fountain encoder, `src/fountain-encoder.hpp`.

A shallow embedding of `ur::FountainEncoder` and its nested `Part` class.

* `uint32_t` and `size_t` values are natural numbers; the places where the
  unsigned 32-bit counter can wrap, the `seq_num_` increment of `next_part`
  and the `seq_num - 1` of the index selector, carry an explicit
  `% UINT32_MOD`.
* `ByteVector` (`std::vector<uint8_t>`) is a list of natural numbers.
* The header defines the `Part` constructor, the accessors, `seq_len`,
  `is_complete` and `is_single_part` inline; these are embedded from the code.
* The constructor of `FountainEncoder`, `find_nominal_fragment_length`,
  `partition_message`, `mix` and `next_part` are only declared in the header.
  Their bodies are modelled from the specification, and each such definition
  says so in its doc comment.  The checksum provider `crc32` and the
  pseudo-random branch of the index selector are external collaborators and
  appear as parameters.
-/

namespace ur

/-- Type `ByteVector` of `utils.hpp`: a sequence of bytes. -/
abbrev ByteVector := List Nat

/-- Type `PartIndexes` of `fountain-utils.hpp`: the ordered fragment indexes mixed
into one part. -/
abbrev PartIndexes := List Nat

/-- Number of values of a `uint32_t`. -/
def UINT32_MOD : Nat := 4294967296

/-! ## `FountainEncoder::Part` -/

/-- Private members of `FountainEncoder::Part` (header lines 46 to 50). -/
structure FountainEncoder.Part where
  seq_num_ : Nat
  seq_len_ : Nat
  message_len_ : Nat
  checksum_ : Nat
  data_ : ByteVector
deriving DecidableEq, Repr

namespace FountainEncoder.Part

/-- The five-argument constructor
`Part(seq_num, seq_len, message_len, checksum, data)`: its member initialiser
list copies each argument into the member of the same name. -/
def new (seq_num seq_len message_len checksum : Nat) (data : ByteVector) : Part :=
  { seq_num_ := seq_num, seq_len_ := seq_len, message_len_ := message_len,
    checksum_ := checksum, data_ := data }

/-- Accessor `uint32_t seq_num() const`. -/
def seq_num (p : Part) : Nat := p.seq_num_

/-- Accessor `size_t seq_len() const`. -/
def seq_len (p : Part) : Nat := p.seq_len_

/-- Accessor `size_t message_len() const`. -/
def message_len (p : Part) : Nat := p.message_len_

/-- Accessor `uint32_t checksum() const`. -/
def checksum (p : Part) : Nat := p.checksum_

/-- Accessor `const ByteVector& data() const`. -/
def data (p : Part) : ByteVector := p.data_

end FountainEncoder.Part

/-! ## `FountainEncoder` state and inline members -/

/-- Private members of `FountainEncoder` (header lines 74 to 79). -/
structure FountainEncoder where
  message_len_ : Nat
  checksum_ : Nat
  fragment_len_ : Nat
  fragments_ : List ByteVector
  seq_num_ : Nat
  last_part_indexes_ : PartIndexes
deriving DecidableEq, Repr

namespace FountainEncoder

/-- Accessor `uint32_t seq_num() const`. -/
def seq_num (e : FountainEncoder) : Nat := e.seq_num_

/-- Member `size_t seq_len() const { return fragments_.size(); }`. -/
def seq_len (e : FountainEncoder) : Nat := e.fragments_.length

/-- Member `bool is_complete() const { return seq_num_ >= seq_len(); }`.
The `uint32_t` operand is widened to `size_t` for the comparison, which keeps
its value, so the comparison is the one on natural numbers. -/
def is_complete (e : FountainEncoder) : Bool := decide (e.seq_num_ ≥ e.seq_len)

/-- Member `bool is_single_part() const { return seq_len() == 1; }`. -/
def is_single_part (e : FountainEncoder) : Bool := decide (e.seq_len = 1)

end FountainEncoder

/-! ## Message partitioner -/

/-- The quotient `ceil(n / k)` on natural numbers. -/
def ceil_div (n k : Nat) : Nat := (n + k - 1) / k

/-- Modelled from the spec: the body of
`FountainEncoder::find_nominal_fragment_length`, which the header only
declares.  Violated preconditions (`message_len ≥ 1`, `min_fragment_len ≥ 1`,
`max_fragment_len ≥ min_fragment_len`) give no result.  A message shorter
than `min_fragment_len` is one fragment of its own length.  Otherwise the
fragment count `k` is searched from 1 upward, capped at
`floor(message_len / min_fragment_len)`, and the search stops at the first
`ceil(message_len / k)` that does not exceed `max_fragment_len`: the fewest
fragments that respect the upper bound, as the rationale of the spec has it,
and the fragment size closest to `max_fragment_len`, as the comment above the
declaration in the header has it.  The spec names no value for a search that
ends without one, so that case gives no result. -/
def FountainEncoder.find_nominal_fragment_length
    (message_len min_fragment_len max_fragment_len : Nat) : Option Nat :=
  if message_len = 0 ∨ min_fragment_len = 0 ∨ max_fragment_len < min_fragment_len then
    none
  else if message_len < min_fragment_len then
    some message_len
  else
    ((List.range' 1 (message_len / min_fragment_len)).map (ceil_div message_len)).find?
      (fun fragment_len => decide (fragment_len ≤ max_fragment_len))

/-- Modelled from the spec: the splitting loop of
`FountainEncoder::partition_message`.  While bytes remain, the next
`fragment_len` of them (fewer at the end of the message) are cut off and
zero-padded to `fragment_len` bytes.  The first argument bounds the number of
iterations. -/
def FountainEncoder.partition_loop (fragment_len : Nat) : Nat → ByteVector → List ByteVector
  | 0, _ => []
  | _ + 1, [] => []
  | fuel + 1, b :: bs =>
    let fragment := (b :: bs).take fragment_len
    (fragment ++ List.replicate (fragment_len - fragment.length) 0)
      :: partition_loop fragment_len fuel ((b :: bs).drop fragment_len)

/-- Modelled from the spec: the body of `FountainEncoder::partition_message`,
which the header only declares.  A zero `fragment_len` is a fatal programmer
error and gives no result; otherwise the loop runs with one iteration allowed
for each byte of the message, which is enough because every iteration
consumes at least one byte. -/
def FountainEncoder.partition_message (message : ByteVector) (fragment_len : Nat) :
    Option (List ByteVector) :=
  if fragment_len = 0 then none
  else some (partition_loop fragment_len message.length message)

/-! ## Index selector and fragment mixer -/

/-- Modelled from the spec: `select_indexes(seq_num, seq_len, checksum)`.  For
`seq_num ≤ seq_len` the result is the singleton `{seq_num - 1}`, computed in
the unsigned 32-bit arithmetic of the counter, so that `seq_num = 0` names the
index `2^32 - 1`; beyond that the indexes come from the pseudo-random
selection, whose degree table and seed function the spec leaves open and
which is the parameter `select_mixed`. -/
def select_indexes (select_mixed : Nat → Nat → Nat → PartIndexes)
    (seq_num seq_len checksum : Nat) : PartIndexes :=
  if seq_num ≤ seq_len then [(seq_num + UINT32_MOD - 1) % UINT32_MOD]
  else select_mixed seq_num seq_len checksum

/-- Modelled from the spec: byte-by-byte XOR of a fragment into the output
buffer, the fragment zero-extended to the length of the buffer. -/
def xor_into : ByteVector → ByteVector → ByteVector
  | [], _ => []
  | t :: ts, [] => t :: ts
  | t :: ts, s :: ss => (t ^^^ s) :: xor_into ts ss

namespace FountainEncoder

/-- Modelled from the spec: reading `fragments_[index]`.  An index outside
`[0, seq_len)` is a fatal programmer error and gives no result. -/
def fragment_at (e : FountainEncoder) (index : Nat) : Option ByteVector :=
  e.fragments_[index]?

/-- Modelled from the spec: the body of `FountainEncoder::mix`, which the
header only declares.  A zero buffer of `fragment_len_` bytes receives the XOR
of every fragment named by `indexes`. -/
def mix (e : FountainEncoder) (indexes : PartIndexes) : Option ByteVector :=
  indexes.foldlM (fun result index => (e.fragment_at index).map (xor_into result))
    (List.replicate e.fragment_len_ 0)

/-- Modelled from the spec: the constructor
`FountainEncoder(message, max_fragment_len, first_seq_num, min_fragment_len)`,
which the header only declares.  It records the message length and the
checksum of the unpadded message, picks the fragment length, partitions the
message and sets the counter to `first_seq_num`; it returns the encoder alone,
no part.  `crc32` is the external checksum provider. -/
def new (crc32 : ByteVector → Nat) (message : ByteVector)
    (max_fragment_len first_seq_num min_fragment_len : Nat) : Option FountainEncoder := do
  let fragment_len ← find_nominal_fragment_length message.length min_fragment_len max_fragment_len
  let fragments ← partition_message message fragment_len
  pure { message_len_ := message.length, checksum_ := crc32 message,
         fragment_len_ := fragment_len, fragments_ := fragments,
         seq_num_ := first_seq_num, last_part_indexes_ := [] }

/-- Modelled from the spec: the body of `FountainEncoder::next_part`, which
the header only declares.  The part carries the value the `uint32_t` counter
has when the call starts, so that the first part of an encoder carries
`first_seq_num`, the value construction left in the counter.  The call
computes the indexes for that value, mixes the named fragments, builds the
part from the counter value, the fragment count, the message length, the
checksum and the mixed bytes, records the indexes in `last_part_indexes_` and
increments the counter, which wraps from `2^32 - 1` to `0`.  A fatal error in
`mix` gives no result. -/
def next_part (select_mixed : Nat → Nat → Nat → PartIndexes) (e : FountainEncoder) :
    Option (Part × FountainEncoder) :=
  let seq_num := e.seq_num_ % UINT32_MOD
  let indexes := select_indexes select_mixed seq_num e.seq_len e.checksum_
  match e.mix indexes with
  | none => none
  | some mixed =>
    some (Part.new seq_num e.seq_len e.message_len_ e.checksum_ mixed,
          { e with seq_num_ := (seq_num + 1) % UINT32_MOD, last_part_indexes_ := indexes })

/-- The parts returned by `k` successive calls of `next_part`, in order, and
the encoder after the last call; no result as soon as one call has none. -/
def next_parts (select_mixed : Nat → Nat → Nat → PartIndexes) :
    Nat → FountainEncoder → Option (List Part × FountainEncoder)
  | 0, e => some ([], e)
  | k + 1, e =>
    match next_part select_mixed e with
    | none => none
    | some (p, e1) =>
      match next_parts select_mixed k e1 with
      | none => none
      | some (ps, e2) => some (p :: ps, e2)

end FountainEncoder

/-! ## Concrete inputs used by the examples -/

/-- The thirty-byte message `0, 1, ..., 29`. -/
def message30 : ByteVector := List.range 30

/-- A stand-in checksum provider for the examples. -/
def crc32_zero : ByteVector → Nat := fun _ => 0

/-- A stand-in pseudo-random selection for the examples: fragment 0 alone. -/
def select_first : Nat → Nat → Nat → PartIndexes := fun _ _ _ => [0]

/-- The three fragments of `message30` at fragment length 10. -/
def fragments30 : List ByteVector :=
  [[0, 1, 2, 3, 4, 5, 6, 7, 8, 9], [10, 11, 12, 13, 14, 15, 16, 17, 18, 19],
   [20, 21, 22, 23, 24, 25, 26, 27, 28, 29]]

/-- The encoder built from `message30` with `max_fragment_len = 10` and
`min_fragment_len = 10` under `crc32_zero`, in the state where its counter is
`seq_num` and its last part used `indexes`. -/
def encoder30 (seq_num : Nat) (indexes : PartIndexes) : FountainEncoder :=
  { message_len_ := 30, checksum_ := 0, fragment_len_ := 10, fragments_ := fragments30,
    seq_num_ := seq_num, last_part_indexes_ := indexes }

namespace FountainEncoder

/-- C1: `is_complete()` is true exactly when `seq_num >= seq_len`, the
comparison being the one on the unsigned values with `seq_len` the number of
fragments in the table; in particular it is false whenever
`seq_num < seq_len`, also for a table of `2^32` fragments or more, which a
comparison on `seq_len` truncated to 32 bits would get wrong. -/
theorem is_complete_iff_seq_num_ge_seq_len (e : FountainEncoder) :
    (e.is_complete = true ↔ e.seq_num ≥ e.fragments_.length)
    ∧ (e.seq_num < e.seq_len → e.is_complete = false)
    ∧ (e.seq_num < UINT32_MOD → UINT32_MOD ≤ e.fragments_.length →
        e.is_complete = false) := by
  refine ⟨?_, ?_, ?_⟩
  · simp [is_complete, seq_num, seq_len]
  · intro h
    simp only [seq_num, seq_len] at h
    simp [is_complete, seq_len, h]
  · intro h1 h2
    have h : e.seq_num_ < e.fragments_.length := by
      simp only [seq_num] at h1
      omega
    simp [is_complete, seq_len, h]

/-- C2: `is_single_part()` is true exactly when `seq_len() == 1`, that is
when the fragment table holds exactly one fragment, whatever the value of the
`seq_num` counter. -/
theorem is_single_part_iff_seq_len_eq_one (e : FountainEncoder) :
    (e.is_single_part = true ↔ e.seq_len = 1)
    ∧ (e.is_single_part = true ↔ ∃ fragment, e.fragments_ = [fragment])
    ∧ (∀ n : Nat, ({ e with seq_num_ := n } : FountainEncoder).is_single_part
        = e.is_single_part) := by
  refine ⟨?_, ?_, ?_⟩
  · simp [is_single_part]
  · simp [is_single_part, seq_len, List.length_eq_one]
  · intro n
    rfl

/-- C10: when `is_single_part()` holds, `is_complete()` is true exactly when
`seq_num() >= 1`; with a non-empty fragment table and `seq_num() == 0`,
`is_complete()` is false, so an encoder at counter 0 is complete only if its
fragment table is empty. -/
theorem is_complete_of_single_part_and_at_zero (e : FountainEncoder) :
    (e.is_single_part = true → (e.is_complete = true ↔ e.seq_num ≥ 1))
    ∧ (e.fragments_ ≠ [] → e.seq_num = 0 → e.is_complete = false)
    ∧ (e.seq_num = 0 → (e.is_complete = true ↔ e.fragments_ = [])) := by
  refine ⟨?_, ?_, ?_⟩
  · intro h
    have h1 : e.fragments_.length = 1 := by
      simpa [is_single_part, seq_len] using h
    simp [is_complete, seq_len, seq_num, h1]
  · intro hne h0
    simp only [seq_num] at h0
    simpa [is_complete, seq_len, h0] using hne
  · intro h0
    simp only [seq_num] at h0
    simp [is_complete, seq_len, h0]

end FountainEncoder

/-- C3: the part built by the five-argument constructor returns, from
`seq_num()`, `seq_len()`, `message_len()`, `checksum()` and `data()`, exactly
the five values it was given, each from the accessor of its own name, and
`data()` has the length and the bytes of the data passed in. -/
theorem FountainEncoder.Part.accessors_return_constructor_arguments
    (seq_num seq_len message_len checksum : Nat) (data : ByteVector) :
    (Part.new seq_num seq_len message_len checksum data).seq_num = seq_num
    ∧ (Part.new seq_num seq_len message_len checksum data).seq_len = seq_len
    ∧ (Part.new seq_num seq_len message_len checksum data).message_len = message_len
    ∧ (Part.new seq_num seq_len message_len checksum data).checksum = checksum
    ∧ (Part.new seq_num seq_len message_len checksum data).data = data
    ∧ (Part.new seq_num seq_len message_len checksum data).data.length = data.length
    ∧ (∀ i : Nat, (Part.new seq_num seq_len message_len checksum data).data[i]? = data[i]?) :=
  ⟨rfl, rfl, rfl, rfl, rfl, rfl, fun _ => rfl⟩

/-! ## Message partitioner: `ceil_div` and `partition_message` -/

theorem ceil_div_zero (k : Nat) : ceil_div 0 k = 0 := by
  unfold ceil_div
  rcases Nat.eq_zero_or_pos k with hk | hk
  · subst hk
    rfl
  · exact Nat.div_eq_of_lt (by omega)

theorem ceil_div_add_right (n k : Nat) (hk : 0 < k) :
    ceil_div (n + k) k = ceil_div n k + 1 := by
  unfold ceil_div
  have h : n + k + k - 1 = (n + k - 1) + k := by omega
  rw [h, Nat.add_div_right _ hk]

theorem ceil_div_eq_one (n k : Nat) (hn : 0 < n) (hnk : n ≤ k) : ceil_div n k = 1 := by
  unfold ceil_div
  have h : n + k - 1 = (n - 1) + k := by omega
  rw [h, Nat.add_div_right _ (by omega), Nat.div_eq_of_lt (by omega)]

/-- One round of the splitting loop lowers the number of fragments still to
come by one. -/
theorem ceil_div_step (n k : Nat) (hk : 0 < k) (hn : 0 < n) :
    ceil_div n k = ceil_div (n - k) k + 1 := by
  rcases Nat.lt_or_ge k n with h | h
  · have h2 : n = (n - k) + k := by omega
    conv_lhs => rw [h2]
    exact ceil_div_add_right _ _ hk
  · have h0 : n - k = 0 := by omega
    rw [h0, ceil_div_zero, ceil_div_eq_one n k hn h]

/-- The value of `ceil_div n k` is the least `c` with `n ≤ c * k`. -/
theorem ceil_div_mul_bounds (n k : Nat) (hk : 0 < k) :
    n ≤ ceil_div n k * k ∧ ceil_div n k * k < n + k := by
  unfold ceil_div
  have h1 := Nat.div_add_mod (n + k - 1) k
  have h2 := Nat.mod_lt (n + k - 1) hk
  have h3 : (n + k - 1) / k * k = k * ((n + k - 1) / k) := Nat.mul_comm _ _
  constructor <;> omega

/-- The quotient `ceil_div` is the ceiling of the rational quotient. -/
theorem ceil_div_eq_ceil (n k : Nat) (hk : 0 < k) :
    ceil_div n k = Nat.ceil ((n : ℚ) / (k : ℚ)) := by
  obtain ⟨h1, h2⟩ := ceil_div_mul_bounds n k hk
  have hkq : (0 : ℚ) < (k : ℚ) := by exact_mod_cast hk
  symm
  rcases Nat.eq_zero_or_pos (ceil_div n k) with h0 | hpos
  · have hn : n = 0 := by
      rw [h0] at h1
      omega
    subst hn
    simp [h0]
  · rw [Nat.ceil_eq_iff (by omega)]
    constructor
    · rw [lt_div_iff₀ hkq]
      have h3 : (ceil_div n k - 1) * k < n := by
        have h4 : (ceil_div n k - 1) * k + k = ceil_div n k * k := by
          conv_rhs => rw [show ceil_div n k = (ceil_div n k - 1) + 1 by omega]
          rw [Nat.add_mul, Nat.one_mul]
        omega
      have h5 : (((ceil_div n k - 1) * k : Nat) : ℚ) < (n : ℚ) := by exact_mod_cast h3
      simpa using h5
    · rw [div_le_iff₀ hkq]
      exact_mod_cast h1

namespace FountainEncoder

/-- With enough iterations allowed, the splitting loop returns
`ceil_div message.length fragment_len` fragments of `fragment_len` bytes
whose concatenation is the message followed by zero bytes. -/
theorem partition_loop_spec (fragment_len : Nat) (hfl : 0 < fragment_len) :
    ∀ (fuel : Nat) (message : ByteVector), message.length ≤ fuel →
      (partition_loop fragment_len fuel message).length
          = ceil_div message.length fragment_len
      ∧ (∀ f ∈ partition_loop fragment_len fuel message, f.length = fragment_len)
      ∧ (partition_loop fragment_len fuel message).flatten
          = message ++ List.replicate
              ((partition_loop fragment_len fuel message).length * fragment_len
                - message.length) 0 := by
  intro fuel
  induction fuel with
  | zero =>
    intro message hlen
    have hnil : message = [] := List.length_eq_zero.mp (by omega)
    subst hnil
    simp [partition_loop, ceil_div_zero]
  | succ fuel ih =>
    intro message hlen
    cases message with
    | nil => simp [partition_loop, ceil_div_zero]
    | cons b bs =>
      have hdrop : ((b :: bs).drop fragment_len).length ≤ fuel := by
        rw [List.length_drop]
        simp only [List.length_cons] at hlen ⊢
        omega
      obtain ⟨ih1, ih2, ih3⟩ := ih ((b :: bs).drop fragment_len) hdrop
      have hstep := ceil_div_step (b :: bs).length fragment_len hfl (by simp)
      rw [List.length_drop] at ih1
      refine ⟨?_, ?_, ?_⟩
      · simp only [partition_loop, List.length_cons] at ih1 hstep ⊢
        omega
      · intro f hf
        simp only [partition_loop, List.mem_cons] at hf
        rcases hf with hf | hf
        · subst hf
          simp only [List.length_append, List.length_replicate, List.length_take]
          omega
        · exact ih2 f hf
      · simp only [partition_loop, List.flatten_cons, List.length_cons]
        rw [ih3, ih1, List.length_drop]
        rcases Nat.lt_or_ge fragment_len (b :: bs).length with h | h
        · have hpad : fragment_len - (List.take fragment_len (b :: bs)).length = 0 := by
            rw [List.length_take]
            omega
          have hcount : (ceil_div ((b :: bs).length - fragment_len) fragment_len + 1)
                * fragment_len - (b :: bs).length
              = ceil_div ((b :: bs).length - fragment_len) fragment_len * fragment_len
                - ((b :: bs).length - fragment_len) := by
            rw [Nat.add_mul, Nat.one_mul]
            omega
          rw [hpad]
          simp only [List.length_cons] at hcount ⊢
          rw [hcount]
          simp only [List.replicate_zero, List.append_nil]
          rw [← List.append_assoc, List.take_append_drop]
        · have h0 : (b :: bs).length - fragment_len = 0 := by omega
          have htake : List.take fragment_len (b :: bs) = b :: bs :=
            List.take_of_length_le h
          have hdrop0 : List.drop fragment_len (b :: bs) = [] :=
            List.drop_of_length_le h
          rw [h0, ceil_div_zero, htake, hdrop0]
          simp

/-- C8: for a non-empty message and `fragment_len >= 1`, `partition_message`
returns exactly `ceil(message_len / fragment_len)` fragments, each of exactly
`fragment_len` bytes; their concatenation cut to `message_len` bytes is the
message, and the bytes after it are zero padding, fewer than `fragment_len`
of them, so all inside the final fragment. -/
theorem partition_message_covers_message (message : ByteVector) (fragment_len : Nat)
    (hmsg : message ≠ []) (hfl : 1 ≤ fragment_len) :
    ∃ fragments, partition_message message fragment_len = some fragments
      ∧ fragments.length = Nat.ceil ((message.length : ℚ) / (fragment_len : ℚ))
      ∧ (∀ f ∈ fragments, f.length = fragment_len)
      ∧ fragments.flatten.take message.length = message
      ∧ fragments.flatten.drop message.length
          = List.replicate (fragments.length * fragment_len - message.length) 0
      ∧ fragments.length * fragment_len - message.length < fragment_len
      ∧ fragments ≠ [] := by
  obtain ⟨h1, h2, h3⟩ := partition_loop_spec fragment_len hfl message.length message (le_refl _)
  obtain ⟨hb1, hb2⟩ := ceil_div_mul_bounds message.length fragment_len hfl
  refine ⟨partition_loop fragment_len message.length message, ?_, ?_, h2, ?_, ?_, ?_, ?_⟩
  · simp only [partition_message]
    rw [if_neg (by omega)]
  · rw [h1]
    exact ceil_div_eq_ceil _ _ hfl
  · rw [h3, List.take_left]
  · rw [h3, List.drop_left]
  · rw [h1]
    omega
  · intro hnil
    rw [hnil] at h1
    have hpos : 0 < message.length := List.length_pos.mpr hmsg
    simp only [List.length_nil] at h1
    rw [← h1] at hb1
    omega

/-- Witness of C8: a seven-byte message in fragments of three bytes. -/
theorem partition_message_covers_message_witness :
    partition_message [1, 2, 3, 4, 5, 6, 7] 3 = some [[1, 2, 3], [4, 5, 6], [7, 0, 0]]
    ∧ ∃ fragments, partition_message [1, 2, 3, 4, 5, 6, 7] 3 = some fragments
      ∧ fragments.length
          = Nat.ceil ((([1, 2, 3, 4, 5, 6, 7] : ByteVector).length : ℚ) / ((3 : Nat) : ℚ))
      ∧ (∀ f ∈ fragments, f.length = 3)
      ∧ fragments.flatten.take ([1, 2, 3, 4, 5, 6, 7] : ByteVector).length
          = [1, 2, 3, 4, 5, 6, 7]
      ∧ fragments.flatten.drop ([1, 2, 3, 4, 5, 6, 7] : ByteVector).length
          = List.replicate
              (fragments.length * 3 - ([1, 2, 3, 4, 5, 6, 7] : ByteVector).length) 0
      ∧ fragments.length * 3 - ([1, 2, 3, 4, 5, 6, 7] : ByteVector).length < 3
      ∧ fragments ≠ [] :=
  ⟨by decide, partition_message_covers_message [1, 2, 3, 4, 5, 6, 7] 3 (by decide) (by decide)⟩

/-! ## Message partitioner: `find_nominal_fragment_length` -/

/-- Any `c` with `n ≤ c * k` is at least `ceil_div n k`. -/
theorem ceil_div_le_of_le_mul (n k c : Nat) (hk : 0 < k) (h : n ≤ c * k) :
    ceil_div n k ≤ c := by
  obtain ⟨_, h2⟩ := ceil_div_mul_bounds n k hk
  have h3 : ceil_div n k * k < (c + 1) * k := by
    rw [Nat.add_mul, Nat.one_mul]
    omega
  have h4 := Nat.lt_of_mul_lt_mul_right h3
  omega

/-- More fragments means shorter fragments. -/
theorem ceil_div_antitone (n k k2 : Nat) (hk : 0 < k) (hkk : k ≤ k2) :
    ceil_div n k2 ≤ ceil_div n k := by
  obtain ⟨h1, _⟩ := ceil_div_mul_bounds n k hk
  apply ceil_div_le_of_le_mul n k2 _ (by omega)
  exact le_trans h1 (Nat.mul_le_mul_left _ hkk)

theorem ceil_div_pos (n k : Nat) (hk : 0 < k) (hn : 0 < n) : 0 < ceil_div n k := by
  obtain ⟨h1, _⟩ := ceil_div_mul_bounds n k hk
  rcases Nat.eq_zero_or_pos (ceil_div n k) with h0 | hpos
  · rw [h0] at h1
    omega
  · exact hpos

/-- The upward search over `start, start + 1, ...` stops at the first
candidate count whose fragment length is accepted. -/
theorem find_first_candidate (g : Nat → Nat) (p : Nat → Bool) :
    ∀ (count start k : Nat), start ≤ k → k < start + count → p (g k) = true →
      (∀ j, start ≤ j → j < k → p (g j) = false) →
      ((List.range' start count).map g).find? p = some (g k) := by
  intro count
  induction count with
  | zero =>
    intro start k h1 h2
    omega
  | succ count ih =>
    intro start k h1 h2 hp hfirst
    rw [List.range'_succ, List.map_cons, List.find?_cons]
    rcases Nat.eq_or_lt_of_le h1 with heq | hlt
    · subst heq
      rw [hp]
    · rw [hfirst start (le_refl _) hlt]
      exact ih (start + 1) k (by omega) (by omega) hp
        (fun j hj1 hj2 => hfirst j (by omega) hj2)

/-- The upward search has no result when no candidate count is accepted. -/
theorem find_no_candidate (g : Nat → Nat) (p : Nat → Bool) :
    ∀ (count start : Nat), (∀ j, start ≤ j → j < start + count → p (g j) = false) →
      ((List.range' start count).map g).find? p = none := by
  intro count
  induction count with
  | zero =>
    intro start _
    rfl
  | succ count ih =>
    intro start hnone
    rw [List.range'_succ, List.map_cons, List.find?_cons, hnone start (le_refl _) (by omega)]
    exact ih (start + 1) (fun j hj1 hj2 => hnone j (by omega) (by omega))

/-- The search of `find_nominal_fragment_length` ends without a value exactly
when no count up to the cap gives a fragment length within the maximum. -/
theorem find_nominal_fragment_length_none (message_len min_fragment_len max_fragment_len : Nat)
    (hmin : 1 ≤ min_fragment_len) (hmax : min_fragment_len ≤ max_fragment_len)
    (hlen : min_fragment_len ≤ message_len)
    (hnone : ∀ k, 1 ≤ k → k ≤ message_len / min_fragment_len →
      max_fragment_len < ceil_div message_len k) :
    find_nominal_fragment_length message_len min_fragment_len max_fragment_len = none := by
  unfold find_nominal_fragment_length
  rw [if_neg (by omega), if_neg (by omega)]
  apply find_no_candidate
  intro j hj1 hj2
  have := hnone j hj1 (by omega)
  simp only [decide_eq_false_iff_not]
  omega

/-- C9 as amended: under the preconditions, a message shorter than
`min_fragment_len` gives its own length, which lies in
`[1, max_fragment_len]`; otherwise, when some count `k` in
`[1, floor(message_len / min_fragment_len)]` has
`ceil(message_len / k) <= max_fragment_len`, the result is
`r = ceil(message_len / k)` for the least such `k`, so `1 <= r <=
max_fragment_len` and `r` is the largest fragment length within
`max_fragment_len` that a count in that range reaches. -/
theorem find_nominal_fragment_length_first_fit
    (message_len min_fragment_len max_fragment_len : Nat)
    (hlen : 1 ≤ message_len) (hmin : 1 ≤ min_fragment_len)
    (hmax : min_fragment_len ≤ max_fragment_len) :
    (message_len < min_fragment_len →
      find_nominal_fragment_length message_len min_fragment_len max_fragment_len
        = some message_len
      ∧ 1 ≤ message_len ∧ message_len ≤ max_fragment_len
      ∧ Nat.ceil ((message_len : ℚ) / ((1 : Nat) : ℚ)) = message_len)
    ∧ (min_fragment_len ≤ message_len →
      (∃ k0 : Nat, 1 ≤ k0 ∧ k0 ≤ message_len / min_fragment_len
        ∧ Nat.ceil ((message_len : ℚ) / (k0 : ℚ)) ≤ max_fragment_len) →
      ∃ r k : Nat, find_nominal_fragment_length message_len min_fragment_len max_fragment_len
          = some r
        ∧ 1 ≤ r ∧ r ≤ max_fragment_len
        ∧ 1 ≤ k ∧ k ≤ message_len / min_fragment_len
        ∧ Nat.ceil ((message_len : ℚ) / (k : ℚ)) = r
        ∧ (∀ j : Nat, 1 ≤ j → j < k →
            max_fragment_len < Nat.ceil ((message_len : ℚ) / (j : ℚ)))
        ∧ (∀ j : Nat, 1 ≤ j → j ≤ message_len / min_fragment_len →
            Nat.ceil ((message_len : ℚ) / (j : ℚ)) ≤ max_fragment_len →
            Nat.ceil ((message_len : ℚ) / (j : ℚ)) ≤ r)) := by
  constructor
  · intro hshort
    refine ⟨?_, hlen, by omega, ?_⟩
    · unfold find_nominal_fragment_length
      rw [if_neg (by omega), if_pos hshort]
    · simp
  · intro hlong hex
    have hex2 : ∃ k0, 1 ≤ k0 ∧ k0 ≤ message_len / min_fragment_len
        ∧ ceil_div message_len k0 ≤ max_fragment_len := by
      obtain ⟨k0, h1, h2, h3⟩ := hex
      exact ⟨k0, h1, h2, by rw [ceil_div_eq_ceil _ _ h1]; exact h3⟩
    have hk := Nat.find_spec hex2
    have hkmin := fun j => @Nat.find_min _ _ hex2 j
    generalize Nat.find hex2 = k at hk hkmin
    obtain ⟨hk1, hk2, hk3⟩ := hk
    have hfirst : ∀ j, 1 ≤ j → j < k → max_fragment_len < ceil_div message_len j := by
      intro j hj1 hj2
      by_contra hcon
      exact hkmin j hj2 ⟨hj1, by omega, by omega⟩
    refine ⟨ceil_div message_len k, k, ?_, ceil_div_pos _ _ hk1 hlen, hk3, hk1, hk2,
      (ceil_div_eq_ceil _ _ hk1).symm, ?_, ?_⟩
    · unfold find_nominal_fragment_length
      rw [if_neg (by omega), if_neg (by omega)]
      apply find_first_candidate (ceil_div message_len) _ _ 1 k hk1 (by omega)
      · simpa using hk3
      · intro j hj1 hj2
        have := hfirst j hj1 hj2
        simp only [decide_eq_false_iff_not]
        omega
    · intro j hj1 hj2
      rw [← ceil_div_eq_ceil _ _ hj1]
      exact hfirst j hj1 hj2
    · intro j hj1 hj2 hj3
      rw [← ceil_div_eq_ceil _ _ hj1] at hj3 ⊢
      rcases Nat.lt_or_ge j k with hlt | hge
      · have := hfirst j hj1 hlt
        omega
      · exact ceil_div_antitone _ _ _ hk1 hge

/-- Witness of C9 as amended: a seven-byte message under a minimum of ten,
and a thirty-byte message with lengths between five and ten. -/
theorem find_nominal_fragment_length_first_fit_witness :
    (find_nominal_fragment_length 7 10 10 = some 7
      ∧ 1 ≤ 7 ∧ 7 ≤ 10 ∧ Nat.ceil (((7 : Nat) : ℚ) / ((1 : Nat) : ℚ)) = 7)
    ∧ find_nominal_fragment_length 30 5 10 = some 10
    ∧ ∃ r k : Nat, find_nominal_fragment_length 30 5 10 = some r
        ∧ 1 ≤ r ∧ r ≤ 10 ∧ 1 ≤ k ∧ k ≤ 30 / 5
        ∧ Nat.ceil (((30 : Nat) : ℚ) / (k : ℚ)) = r
        ∧ (∀ j : Nat, 1 ≤ j → j < k → 10 < Nat.ceil (((30 : Nat) : ℚ) / (j : ℚ)))
        ∧ (∀ j : Nat, 1 ≤ j → j ≤ 30 / 5 →
            Nat.ceil (((30 : Nat) : ℚ) / (j : ℚ)) ≤ 10 →
            Nat.ceil (((30 : Nat) : ℚ) / (j : ℚ)) ≤ r) :=
  ⟨(find_nominal_fragment_length_first_fit 7 10 10 (by decide) (by decide) (by decide)).1
      (by decide),
    by decide,
    (find_nominal_fragment_length_first_fit 30 5 10 (by decide) (by decide) (by decide)).2
      (by decide) ⟨3, by decide, by decide, by norm_num⟩⟩

/-- Counterexample to C9 as stated.  For a thirty-byte message with lengths
between five and ten the result is 10, although six fragments, a count within
the cap `floor(30 / 5) = 6`, reach the smaller length 5.  For a nineteen-byte
message with minimum and maximum ten, the only count within the cap
`floor(19 / 10) = 1` needs 19 bytes, so no length within the maximum is
reachable and the search has no result. -/
theorem find_nominal_fragment_length_not_smallest :
    (find_nominal_fragment_length 30 5 10 = some 10
      ∧ 1 ≤ 6 ∧ 6 ≤ 30 / 5 ∧ ceil_div 30 6 = 5 ∧ 5 ≤ 10 ∧ 5 < 10)
    ∧ (find_nominal_fragment_length 19 10 10 = none
      ∧ 19 / 10 = 1 ∧ ceil_div 19 1 = 19 ∧ ¬ (19 ≤ 10)) := by
  decide

/-! ## Fragment mixer and `next_part` -/

/-- XOR into a zero buffer of the fragment's own length gives the fragment. -/
theorem xor_into_zeros (fragment : ByteVector) :
    xor_into (List.replicate fragment.length 0) fragment = fragment := by
  induction fragment with
  | nil => rfl
  | cons s ss ih =>
    simp only [List.length_cons, List.replicate_succ, xor_into, Nat.zero_xor, ih]

theorem mix_singleton (e : FountainEncoder) (index : Nat) :
    e.mix [index]
      = (e.fragment_at index).map (xor_into (List.replicate e.fragment_len_ 0)) := by
  simp [mix, List.foldlM]

/-- What a returning call of `next_part` returns. -/
theorem next_part_eq_some {select_mixed : Nat → Nat → Nat → PartIndexes}
    {e e2 : FountainEncoder} {p : Part} (h : next_part select_mixed e = some (p, e2)) :
    ∃ mixed,
      e.mix (select_indexes select_mixed (e.seq_num_ % UINT32_MOD) e.seq_len e.checksum_)
        = some mixed
      ∧ p = Part.new (e.seq_num_ % UINT32_MOD) e.seq_len e.message_len_ e.checksum_ mixed
      ∧ e2 = { e with
          seq_num_ := (e.seq_num_ % UINT32_MOD + 1) % UINT32_MOD,
          last_part_indexes_ :=
            select_indexes select_mixed (e.seq_num_ % UINT32_MOD) e.seq_len e.checksum_ } := by
  unfold next_part at h
  simp only at h
  split at h
  · exact absurd h (by simp)
  · rename_i mixed hmix
    simp only [Option.some.injEq, Prod.mk.injEq] at h
    exact ⟨mixed, hmix, h.1.symm, h.2.symm⟩

theorem next_part_preserves {select_mixed : Nat → Nat → Nat → PartIndexes}
    {e e2 : FountainEncoder} {p : Part} (h : next_part select_mixed e = some (p, e2)) :
    e2.fragments_ = e.fragments_ ∧ e2.fragment_len_ = e.fragment_len_
    ∧ e2.message_len_ = e.message_len_ ∧ e2.checksum_ = e.checksum_
    ∧ e2.seq_num_ = (e.seq_num_ % UINT32_MOD + 1) % UINT32_MOD
    ∧ p.seq_num = e.seq_num_ % UINT32_MOD := by
  obtain ⟨mixed, _, hp, he⟩ := next_part_eq_some h
  subst hp he
  exact ⟨rfl, rfl, rfl, rfl, rfl, rfl⟩

theorem next_parts_succ_eq_some {select_mixed : Nat → Nat → Nat → PartIndexes}
    {k : Nat} {e e2 : FountainEncoder} {ps : List Part}
    (h : next_parts select_mixed (k + 1) e = some (ps, e2)) :
    ∃ p e1 rest, next_part select_mixed e = some (p, e1)
      ∧ next_parts select_mixed k e1 = some (rest, e2) ∧ ps = p :: rest := by
  simp only [next_parts] at h
  split at h
  · exact absurd h (by simp)
  · rename_i p e1 hnext
    split at h
    · exact absurd h (by simp)
    · rename_i rest e3 hrest
      simp only [Option.some.injEq, Prod.mk.injEq] at h
      obtain ⟨h1, h2⟩ := h
      subst h1 h2
      exact ⟨p, e1, rest, hnext, hrest, rfl⟩

theorem next_parts_preserves (select_mixed : Nat → Nat → Nat → PartIndexes) :
    ∀ (k : Nat) (e e2 : FountainEncoder) (ps : List Part),
      next_parts select_mixed k e = some (ps, e2) →
      e2.fragments_ = e.fragments_ ∧ e2.fragment_len_ = e.fragment_len_
      ∧ e2.message_len_ = e.message_len_ ∧ e2.checksum_ = e.checksum_
      ∧ ps.length = k := by
  intro k
  induction k with
  | zero =>
    intro e e2 ps h
    simp only [next_parts, Option.some.injEq, Prod.mk.injEq] at h
    obtain ⟨h1, h2⟩ := h
    subst h1 h2
    exact ⟨rfl, rfl, rfl, rfl, rfl⟩
  | succ k ih =>
    intro e e2 ps h
    obtain ⟨p, e1, rest, hnext, hrest, hps⟩ := next_parts_succ_eq_some h
    obtain ⟨a1, a2, a3, a4, _, _⟩ := next_part_preserves hnext
    obtain ⟨b1, b2, b3, b4, b5⟩ := ih e1 e2 rest hrest
    subst hps
    refine ⟨b1.trans a1, b2.trans a2, b3.trans a3, b4.trans a4, ?_⟩
    simp [b5]

/-- What a returning constructor call has built. -/
theorem new_eq_some {crc32 : ByteVector → Nat} {message : ByteVector}
    {max_fragment_len first_seq_num min_fragment_len : Nat} {e : FountainEncoder}
    (h : new crc32 message max_fragment_len first_seq_num min_fragment_len = some e) :
    find_nominal_fragment_length message.length min_fragment_len max_fragment_len
        = some e.fragment_len_
    ∧ partition_message message e.fragment_len_ = some e.fragments_
    ∧ e.message_len_ = message.length ∧ e.checksum_ = crc32 message
    ∧ e.seq_num_ = first_seq_num ∧ e.last_part_indexes_ = [] := by
  unfold new at h
  cases hf : find_nominal_fragment_length message.length min_fragment_len max_fragment_len with
  | none =>
    rw [hf] at h
    exact absurd h (by simp)
  | some fragment_len =>
    rw [hf] at h
    cases hp : partition_message message fragment_len with
    | none =>
      simp only [Option.bind_eq_bind, Option.some_bind, hp, Option.none_bind] at h
      exact absurd h (by simp)
    | some fragments =>
      simp only [Option.bind_eq_bind, Option.some_bind, hp, Option.pure_def,
        Option.some.injEq] at h
      subst h
      exact ⟨rfl, hp, rfl, rfl, rfl, rfl⟩

/-- A fragment length that `find_nominal_fragment_length` returns is positive. -/
theorem find_nominal_fragment_length_pos {message_len min_fragment_len max_fragment_len r : Nat}
    (h : find_nominal_fragment_length message_len min_fragment_len max_fragment_len = some r) :
    1 ≤ r := by
  unfold find_nominal_fragment_length at h
  split at h
  · exact absurd h (by simp)
  · rename_i hpre
    split at h
    · simp only [Option.some.injEq] at h
      omega
    · have hmem := List.mem_of_find?_eq_some h
      simp only [List.mem_map, List.mem_range'_1] at hmem
      obtain ⟨k, ⟨hk1, _⟩, hk⟩ := hmem
      rw [← hk]
      exact ceil_div_pos _ _ hk1 (by omega)

/-- Every fragment of a constructed encoder has `fragment_len_` bytes. -/
theorem new_fragments_uniform {crc32 : ByteVector → Nat} {message : ByteVector}
    {max_fragment_len first_seq_num min_fragment_len : Nat} {e : FountainEncoder}
    (h : new crc32 message max_fragment_len first_seq_num min_fragment_len = some e) :
    ∀ f ∈ e.fragments_, f.length = e.fragment_len_ := by
  obtain ⟨hf, hp, _⟩ := new_eq_some h
  have hpos := find_nominal_fragment_length_pos hf
  unfold partition_message at hp
  rw [if_neg (by omega)] at hp
  simp only [Option.some.injEq] at hp
  rw [← hp]
  exact (partition_loop_spec e.fragment_len_ hpos message.length message (le_refl _)).2.1

/-! ## The pure path of `next_part` -/

/-- The singleton index of the pure path reads the fragment table at
`seq_num - 1`. -/
theorem select_indexes_pure (select_mixed : Nat → Nat → Nat → PartIndexes)
    (seq_num seq_len checksum : Nat) (h1 : 1 ≤ seq_num) (h2 : seq_num ≤ seq_len)
    (h3 : seq_num < UINT32_MOD) :
    select_indexes select_mixed seq_num seq_len checksum = [seq_num - 1] := by
  have hidx : (seq_num + UINT32_MOD - 1) % UINT32_MOD = seq_num - 1 := by
    unfold UINT32_MOD at *
    omega
  simp only [select_indexes, if_pos h2, hidx]

/-- With fragments of uniform length, a part of the pure path carries the
fragment at `seq_num - 1` unchanged. -/
theorem next_part_pure_data {select_mixed : Nat → Nat → Nat → PartIndexes}
    {e e2 : FountainEncoder} {p : Part}
    (huniform : ∀ f ∈ e.fragments_, f.length = e.fragment_len_)
    (h : next_part select_mixed e = some (p, e2))
    (h1 : 1 ≤ p.seq_num) (h2 : p.seq_num ≤ p.seq_len) :
    e.fragments_[p.seq_num - 1]? = some p.data := by
  obtain ⟨mixed, hmix, hp, _⟩ := next_part_eq_some h
  subst hp
  simp only [Part.new, Part.seq_num, Part.seq_len, Part.data] at h1 h2 ⊢
  rw [select_indexes_pure select_mixed _ _ _ h1 h2 (Nat.mod_lt _ (by decide)),
    mix_singleton] at hmix
  simp only [fragment_at] at hmix
  cases hfrag : e.fragments_[e.seq_num_ % UINT32_MOD - 1]? with
  | none =>
    rw [hfrag] at hmix
    exact absurd hmix (by simp)
  | some fragment =>
    rw [hfrag] at hmix
    simp only [Option.map_some', Option.some.injEq] at hmix
    have hlen := huniform fragment (List.getElem?_mem hfrag)
    rw [← hlen, xor_into_zeros] at hmix
    rw [hmix]

/-- On the pure path `next_part` returns a part. -/
theorem next_part_pure_returns (select_mixed : Nat → Nat → Nat → PartIndexes)
    (e : FountainEncoder) (h1 : 1 ≤ e.seq_num_ % UINT32_MOD)
    (h2 : e.seq_num_ % UINT32_MOD ≤ e.seq_len) :
    ∃ p e2, next_part select_mixed e = some (p, e2) := by
  have hlt : e.seq_num_ % UINT32_MOD - 1 < e.fragments_.length := by
    simp only [seq_len] at h2
    omega
  have hmix : e.mix (select_indexes select_mixed (e.seq_num_ % UINT32_MOD)
      e.seq_len e.checksum_)
      = some (xor_into (List.replicate e.fragment_len_ 0)
          (e.fragments_.get ⟨e.seq_num_ % UINT32_MOD - 1, hlt⟩)) := by
    rw [select_indexes_pure select_mixed _ _ _ h1 h2 (Nat.mod_lt _ (by decide)),
      mix_singleton]
    simp only [fragment_at, List.getElem?_eq_getElem hlt, Option.map_some', List.get_eq_getElem]
  unfold next_part
  simp only [hmix]
  exact ⟨_, _, rfl⟩

/-- C7: for an encoder built by the constructor and advanced by any number of
`next_part()` calls, every part `p` that `next_part()` returns with
`1 <= p.seq_num() <= p.seq_len()` has as `data()` the fragment number
`p.seq_num() - 1` of the fragment table, unmixed, and its `seq_len()`,
`message_len()` and `checksum()` are the encoder's fragment count, the length
of the original message and its checksum; on that path the call does return
a part. -/
theorem next_part_pure_path_identity (crc32 : ByteVector → Nat)
    (select_mixed : Nat → Nat → Nat → PartIndexes) (message : ByteVector)
    (max_fragment_len first_seq_num min_fragment_len k : Nat)
    (e0 e : FountainEncoder) (ps : List Part)
    (hnew : new crc32 message max_fragment_len first_seq_num min_fragment_len = some e0)
    (hrun : next_parts select_mixed k e0 = some (ps, e)) :
    (∀ (p : Part) (e2 : FountainEncoder), next_part select_mixed e = some (p, e2) →
      1 ≤ p.seq_num → p.seq_num ≤ p.seq_len →
      e.fragments_[p.seq_num - 1]? = some p.data
      ∧ partition_message message e.fragment_len_ = some e.fragments_
      ∧ p.seq_len = e.seq_len
      ∧ p.message_len = e.message_len_ ∧ p.message_len = message.length
      ∧ p.checksum = e.checksum_ ∧ p.checksum = crc32 message)
    ∧ (1 ≤ e.seq_num % UINT32_MOD → e.seq_num % UINT32_MOD ≤ e.seq_len →
      ∃ p e2, next_part select_mixed e = some (p, e2)) := by
  obtain ⟨_, hpart, hmlen, hsum, _, _⟩ := new_eq_some hnew
  have huniform0 := new_fragments_uniform hnew
  obtain ⟨hfr, hfl, hml, hcs, _⟩ := next_parts_preserves select_mixed k e0 e ps hrun
  have huniform : ∀ f ∈ e.fragments_, f.length = e.fragment_len_ := by
    rw [hfr, hfl]
    exact huniform0
  constructor
  · intro p e2 hnext h1 h2
    refine ⟨next_part_pure_data huniform hnext h1 h2, ?_, ?_⟩
    · rw [hfr, hfl]
      exact hpart
    · obtain ⟨mixed, _, hp, _⟩ := next_part_eq_some hnext
      subst hp
      refine ⟨rfl, rfl, ?_, rfl, ?_⟩
      · show e.message_len_ = message.length
        rw [hml, hmlen]
      · show e.checksum_ = crc32 message
        rw [hcs, hsum]
  · intro h1 h2
    exact next_part_pure_returns select_mixed e h1 h2

/-- Witness of C7: the second part of the encoder of the thirty-byte message
is its second fragment. -/
theorem next_part_pure_path_identity_witness :
    new crc32_zero message30 10 1 10 = some (encoder30 1 [])
    ∧ next_parts select_first 1 (encoder30 1 [])
        = some ([Part.new 1 3 30 0 [0, 1, 2, 3, 4, 5, 6, 7, 8, 9]], encoder30 2 [0])
    ∧ next_part select_first (encoder30 2 [0])
        = some (Part.new 2 3 30 0 [10, 11, 12, 13, 14, 15, 16, 17, 18, 19], encoder30 3 [1])
    ∧ ((encoder30 2 [0]).fragments_[2 - 1]? = some [10, 11, 12, 13, 14, 15, 16, 17, 18, 19]
      ∧ partition_message message30 10 = some (encoder30 2 [0]).fragments_
      ∧ (3 : Nat) = (encoder30 2 [0]).seq_len
      ∧ (30 : Nat) = (encoder30 2 [0]).message_len_ ∧ (30 : Nat) = message30.length
      ∧ (0 : Nat) = (encoder30 2 [0]).checksum_ ∧ (0 : Nat) = crc32_zero message30) :=
  ⟨by decide, by decide, by decide,
    (next_part_pure_path_identity crc32_zero select_first message30 10 1 10 1
      (encoder30 1 []) (encoder30 2 [0]) [Part.new 1 3 30 0 [0, 1, 2, 3, 4, 5, 6, 7, 8, 9]]
      (by decide) (by decide)).1
      (Part.new 2 3 30 0 [10, 11, 12, 13, 14, 15, 16, 17, 18, 19]) (encoder30 3 [1])
      (by decide) (by decide) (by decide)⟩

/-! ## The counter across construction and calls -/

end FountainEncoder

end ur
